import Mathlib

/-!
Verification of the dimension-generic fixed-size vector type and the integer
arithmetic helpers of AdaptiveCpp's runtime utility header
(`include/hipSYCL/runtime/util.hpp`).

`std::size_t` and `std::uint64_t` are modelled as `Nat` together with explicit
reduction modulo `2 ^ 64` at every arithmetic step that can wrap in C++;
theorems carry `< 2 ^ 64` bounds on the inputs where those matter.
-/

/-- `static_array<Dim>`: an ordered, fixed-length sequence of `Dim` unsigned
64-bit integers (`std::array<std::size_t, Dim> _data`). -/
@[ext]
structure static_array (Dim : Nat) where
  _data : Fin Dim → Nat

/-- A single element assignment `v._data[i] = x`. -/
def setCell {Dim : Nat} (v : static_array Dim) (i : Fin Dim) (x : Nat) : static_array Dim :=
  ⟨fun j => if j = i then x else v._data j⟩

/-- The broadcast constructor `static_array(std::size_t dim0)`: a loop storing
`dim0` into every component. The default-initialised contents are fully
overwritten by the loop, so the model starts from an all-zero array. -/
def sa_broadcast (Dim : Nat) (dim0 : Nat) : static_array Dim :=
  (List.finRange Dim).foldl (fun v i => setCell v i dim0) ⟨fun _ => 0⟩

/-- The one-argument aggregate view of a `Dim = 1` array. -/
def sa_mk1 (d0 : Nat) : static_array 1 :=
  ⟨fun i => match i with
    | ⟨0, _⟩ => d0⟩

/-- The `Dim == 2` constructor `static_array(dim0, dim1)` (aggregate init). -/
def sa_mk2 (d0 d1 : Nat) : static_array 2 :=
  ⟨fun i => match i with
    | ⟨0, _⟩ => d0
    | ⟨1, _⟩ => d1⟩

/-- The `Dim == 3` constructor `static_array(dim0, dim1, dim2)` (aggregate init). -/
def sa_mk3 (d0 d1 d2 : Nat) : static_array 3 :=
  ⟨fun i => match i with
    | ⟨0, _⟩ => d0
    | ⟨1, _⟩ => d1
    | ⟨2, _⟩ => d2⟩

/-- `operator==`: componentwise comparison of `_data` (`std::array` equality). -/
def sa_beq {Dim : Nat} (a b : static_array Dim) : Bool :=
  (List.finRange Dim).all fun i => a._data i == b._data i

/-- `operator!=`: defined in the source as `!(a == b)`. -/
def sa_bne {Dim : Nat} (a b : static_array Dim) : Bool :=
  !(sa_beq a b)

/-- `std::size_t` addition: wraps modulo `2 ^ 64`. -/
def szAdd (x y : Nat) : Nat := (x + y) % 2 ^ 64

/-- `std::size_t` subtraction: for operands `< 2 ^ 64` the C++ result is
`(x + 2 ^ 64 - y) mod 2 ^ 64`. -/
def szSub (x y : Nat) : Nat := (x + 2 ^ 64 - y) % 2 ^ 64

/-- `std::size_t` multiplication: wraps modulo `2 ^ 64`. -/
def szMul (x y : Nat) : Nat := x * y % 2 ^ 64

/-- `std::size_t` division. Division by zero is undefined behaviour in C++ and
excluded by hypotheses wherever it could occur. -/
def szDiv (x y : Nat) : Nat := x / y

/-- `std::size_t` remainder. Zero divisors are excluded as for `szDiv`. -/
def szMod (x y : Nat) : Nat := x % y

/-- The compound-assignment operator family
(`HIPSYCL_RT_SARRAY_MAKE_INPLACE_OP`): the loop
`for (i = 0; i < Dim; ++i) _data[i] op= b._data[i]` applied to the left
operand, which is returned. `f` is the componentwise `std::size_t` operation. -/
def sa_inplace {Dim : Nat} (f : Nat → Nat → Nat) (a b : static_array Dim) : static_array Dim :=
  (List.finRange Dim).foldl (fun v i => setCell v i (f (v._data i) (b._data i))) a

/-- The out-of-place operator family (`HIPSYCL_RT_SARRAY_MAKE_OOPLACE_OP`):
default-construct `result` and write `a._data[i] op b._data[i]` into each of
its components in a loop. -/
def sa_binop {Dim : Nat} (f : Nat → Nat → Nat) (a b : static_array Dim) : static_array Dim :=
  (List.finRange Dim).foldl (fun v i => setCell v i (f (a._data i) (b._data i))) ⟨fun _ => 0⟩

/-- `operator+` on `static_array`. -/
def sa_add {Dim : Nat} (a b : static_array Dim) : static_array Dim := sa_binop szAdd a b

/-- `operator-` on `static_array`. -/
def sa_sub {Dim : Nat} (a b : static_array Dim) : static_array Dim := sa_binop szSub a b

/-- `operator*` on `static_array`. -/
def sa_mul {Dim : Nat} (a b : static_array Dim) : static_array Dim := sa_binop szMul a b

/-- `operator/` on `static_array`. -/
def sa_div {Dim : Nat} (a b : static_array Dim) : static_array Dim := sa_binop szDiv a b

/-- `operator%` on `static_array`. -/
def sa_mod {Dim : Nat} (a b : static_array Dim) : static_array Dim := sa_binop szMod a b

/-- `operator+=` on `static_array`. -/
def sa_add_assign {Dim : Nat} (a b : static_array Dim) : static_array Dim := sa_inplace szAdd a b

/-- `operator-=` on `static_array`. -/
def sa_sub_assign {Dim : Nat} (a b : static_array Dim) : static_array Dim := sa_inplace szSub a b

/-- `operator*=` on `static_array`. -/
def sa_mul_assign {Dim : Nat} (a b : static_array Dim) : static_array Dim := sa_inplace szMul a b

/-- `operator/=` on `static_array`. -/
def sa_div_assign {Dim : Nat} (a b : static_array Dim) : static_array Dim := sa_inplace szDiv a b

/-- The compound remainder assignment on `static_array`. -/
def sa_mod_assign {Dim : Nat} (a b : static_array Dim) : static_array Dim := sa_inplace szMod a b

/-- `size()`: `s = 1; for (i = 0; i < Dim; ++i) s *= _data[i];` in
`std::size_t` arithmetic. -/
def sa_size {Dim : Nat} (v : static_array Dim) : Nat :=
  (List.finRange Dim).foldl (fun s i => s * v._data i % 2 ^ 64) 1

/-- `embed_in_id3`: pad an index with leading zeroes into the canonical
3-dimensional form. Dimensions outside `{1,2,3}` are rejected by a
`static_assert` in the source; the model returns an all-zero array there. -/
def embed_in_id3 : {Dim : Nat} → static_array Dim → static_array 3
  | 1, idx => sa_mk3 0 0 (idx._data 0)
  | 2, idx => sa_mk3 0 (idx._data 0) (idx._data 1)
  | 3, idx => idx
  | _, _ => ⟨fun _ => 0⟩

/-- `embed_in_range3`: pad a range with leading ones into the canonical
3-dimensional form. Dimensions outside `{1,2,3}` are rejected by a
`static_assert` in the source; the model returns an all-zero array there. -/
def embed_in_range3 : {Dim : Nat} → static_array Dim → static_array 3
  | 1, r => sa_mk3 1 1 (r._data 0)
  | 2, r => sa_mk3 1 (r._data 0) (r._data 1)
  | 3, r => r
  | _, _ => ⟨fun _ => 0⟩

/-- `extract_from_id3<Dim>`: take the trailing `Dim` components of a
3-dimensional index. Dimensions outside `{1,2,3}` are rejected by a
`static_assert` in the source; the model returns an all-zero array there. -/
def extract_from_id3 : (Dim : Nat) → static_array 3 → static_array Dim
  | 1, idx => sa_mk1 (idx._data 2)
  | 2, idx => sa_mk2 (idx._data 1) (idx._data 2)
  | 3, idx => idx
  | _, _ => ⟨fun _ => 0⟩

/-- `extract_from_range3<Dim>`: take the trailing `Dim` components of a
3-dimensional range. Dimensions outside `{1,2,3}` are rejected by a
`static_assert` in the source; the model returns an all-zero array there. -/
def extract_from_range3 : (Dim : Nat) → static_array 3 → static_array Dim
  | 1, r => sa_mk1 (r._data 2)
  | 2, r => sa_mk2 (r._data 1) (r._data 2)
  | 3, r => r
  | _, _ => ⟨fun _ => 0⟩

/-- `next_power_of_2` (borrowed from LLVM): smear the bits of `a` downward
with six shift-or steps, then add one, in `std::uint64_t` arithmetic (the
`+ 1` may wrap to zero). -/
def next_power_of_2 (a : Nat) : Nat :=
  let a1 := a ||| (a >>> 1)
  let a2 := a1 ||| (a1 >>> 2)
  let a3 := a2 ||| (a2 >>> 4)
  let a4 := a3 ||| (a3 >>> 8)
  let a5 := a4 ||| (a4 >>> 16)
  let a6 := a5 ||| (a5 >>> 32)
  (a6 + 1) % 2 ^ 64

/-- `power_of_2_ceil`: `0` for `a == 0`, else `next_power_of_2(a - 1)`. -/
def power_of_2_ceil (a : Nat) : Nat :=
  if a = 0 then 0 else next_power_of_2 (a - 1)

/-- `ceil_division`: `(a + b - 1) / b` in `std::uint64_t` arithmetic. For
`b ≥ 1` the C++ value of the numerator is `(a + b - 1) mod 2 ^ 64`. -/
def ceil_division (a b : Nat) : Nat :=
  (a + b - 1) % 2 ^ 64 / b

/-- `next_multiple_of`: `ceil_division(a, b) * b` in `std::uint64_t`
arithmetic. -/
def next_multiple_of (a b : Nat) : Nat :=
  ceil_division a b * b % 2 ^ 64

/-- Claim C2: `embed_in_id3` pads leading components with `0`
(`Dim=1 ↦ (0,0,idx[0])`, `Dim=2 ↦ (0,idx[0],idx[1])`, `Dim=3 ↦ idx`), and
`embed_in_range3` pads leading components with `1`
(`Dim=1 ↦ (1,1,r[0])`, `Dim=2 ↦ (1,r[0],r[1])`, `Dim=3 ↦ r`). -/
theorem c2_embed_padding :
    (∀ idx : static_array 1, embed_in_id3 idx = sa_mk3 0 0 (idx._data 0)) ∧
    (∀ idx : static_array 2, embed_in_id3 idx = sa_mk3 0 (idx._data 0) (idx._data 1)) ∧
    (∀ idx : static_array 3, embed_in_id3 idx = idx) ∧
    (∀ r : static_array 1, embed_in_range3 r = sa_mk3 1 1 (r._data 0)) ∧
    (∀ r : static_array 2, embed_in_range3 r = sa_mk3 1 (r._data 0) (r._data 1)) ∧
    (∀ r : static_array 3, embed_in_range3 r = r) :=
  ⟨fun _ => rfl, fun _ => rfl, fun _ => rfl, fun _ => rfl, fun _ => rfl, fun _ => rfl⟩

/-- `==` on `static_array` is componentwise equality of all `Dim` components. -/
lemma sa_beq_eq_true_iff {Dim : Nat} (a b : static_array Dim) :
    sa_beq a b = true ↔ ∀ i, a._data i = b._data i := by
  simp [sa_beq, List.all_eq_true, List.mem_finRange]

/-- Claim C1: extraction is the exact inverse of embedding, for indices and
for ranges, in every dimension `Dim ∈ {1,2,3}` (stated with the program's
`operator==`). -/
theorem c1_embed_extract_roundtrip :
    (∀ idx : static_array 1, sa_beq (extract_from_id3 1 (embed_in_id3 idx)) idx = true) ∧
    (∀ idx : static_array 2, sa_beq (extract_from_id3 2 (embed_in_id3 idx)) idx = true) ∧
    (∀ idx : static_array 3, sa_beq (extract_from_id3 3 (embed_in_id3 idx)) idx = true) ∧
    (∀ r : static_array 1, sa_beq (extract_from_range3 1 (embed_in_range3 r)) r = true) ∧
    (∀ r : static_array 2, sa_beq (extract_from_range3 2 (embed_in_range3 r)) r = true) ∧
    (∀ r : static_array 3, sa_beq (extract_from_range3 3 (embed_in_range3 r)) r = true) :=
  ⟨fun _ => (sa_beq_eq_true_iff _ _).mpr fun i => match i with
    | ⟨0, _⟩ => rfl,
   fun _ => (sa_beq_eq_true_iff _ _).mpr fun i => match i with
    | ⟨0, _⟩ => rfl
    | ⟨1, _⟩ => rfl,
   fun _ => (sa_beq_eq_true_iff _ _).mpr fun i => match i with
    | ⟨0, _⟩ => rfl
    | ⟨1, _⟩ => rfl
    | ⟨2, _⟩ => rfl,
   fun _ => (sa_beq_eq_true_iff _ _).mpr fun i => match i with
    | ⟨0, _⟩ => rfl,
   fun _ => (sa_beq_eq_true_iff _ _).mpr fun i => match i with
    | ⟨0, _⟩ => rfl
    | ⟨1, _⟩ => rfl,
   fun _ => (sa_beq_eq_true_iff _ _).mpr fun i => match i with
    | ⟨0, _⟩ => rfl
    | ⟨1, _⟩ => rfl
    | ⟨2, _⟩ => rfl⟩

/-- Claim C3: embedding a range into the canonical 3-dimensional form
preserves its volume: `embed_in_range3(r).size() == r.size()` for
`Dim ∈ {1,2,3}`. -/
theorem c3_embed_preserves_size :
    (∀ r : static_array 1, sa_size (embed_in_range3 r) = sa_size r) ∧
    (∀ r : static_array 2, sa_size (embed_in_range3 r) = sa_size r) ∧
    (∀ r : static_array 3, sa_size (embed_in_range3 r) = sa_size r) :=
  ⟨fun _ => rfl, fun _ => rfl, fun _ => rfl⟩

/-- Reading a component after a single assignment. -/
lemma setCell_get {Dim : Nat} (v : static_array Dim) (i : Fin Dim) (x : Nat) (j : Fin Dim) :
    (setCell v i x)._data j = if j = i then x else v._data j := rfl

/-- A write loop whose stored values do not depend on the accumulator: after
the loop, every visited cell holds its prescribed value and every other cell
is unchanged. -/
lemma foldl_write_get {Dim : Nat} (g : Fin Dim → Nat) (l : List (Fin Dim))
    (acc : static_array Dim) (i : Fin Dim) :
    ((l.foldl (fun v j => setCell v j (g j)) acc))._data i =
      if i ∈ l then g i else acc._data i := by
  induction l generalizing acc with
  | nil => simp
  | cons j t ih =>
    rw [List.foldl_cons, ih]
    by_cases ht : i ∈ t
    · simp [ht]
    · by_cases hj : i = j
      · subst hj
        simp [ht, setCell_get]
      · simp [ht, hj, setCell_get]

/-- The compound-assignment loop reads each cell of the accumulator exactly
once, before writing it: over a duplicate-free index list whose cells still
hold the original values of `a`, every visited cell ends up holding
`f (a._data i) (b._data i)` and every other cell is unchanged. -/
lemma foldl_inplace_get {Dim : Nat} (f : Nat → Nat → Nat) (a b : static_array Dim)
    (l : List (Fin Dim)) (hl : l.Nodup) (acc : static_array Dim)
    (hacc : ∀ i ∈ l, acc._data i = a._data i) (i : Fin Dim) :
    ((l.foldl (fun v j => setCell v j (f (v._data j) (b._data j))) acc))._data i =
      if i ∈ l then f (a._data i) (b._data i) else acc._data i := by
  induction l generalizing acc with
  | nil => simp
  | cons j t ih =>
    rw [List.foldl_cons]
    have hjt : j ∉ t := (List.nodup_cons.mp hl).1
    have ha_j : acc._data j = a._data j := hacc j (by simp)
    have hstep : ∀ k ∈ t,
        (setCell acc j (f (acc._data j) (b._data j)))._data k = a._data k := by
      intro k hk
      have hkj : k ≠ j := fun h => hjt (h ▸ hk)
      rw [setCell_get]
      simp only [hkj, if_false]
      exact hacc k (by simp [hk])
    rw [ih (List.nodup_cons.mp hl).2 _ hstep]
    by_cases ht : i ∈ t
    · simp [ht]
    · by_cases hj : i = j
      · subst hj
        simp [ht, setCell_get, ha_j]
      · simp [ht, hj, setCell_get]

/-- Each component of an out-of-place operator result. -/
lemma sa_binop_get {Dim : Nat} (f : Nat → Nat → Nat) (a b : static_array Dim) (i : Fin Dim) :
    (sa_binop f a b)._data i = f (a._data i) (b._data i) := by
  unfold sa_binop
  rw [foldl_write_get]
  simp [List.mem_finRange]

/-- Each component of a compound-assignment result. -/
lemma sa_inplace_get {Dim : Nat} (f : Nat → Nat → Nat) (a b : static_array Dim) (i : Fin Dim) :
    (sa_inplace f a b)._data i = f (a._data i) (b._data i) := by
  unfold sa_inplace
  rw [foldl_inplace_get f a b _ (List.nodup_finRange Dim) a (fun _ _ => rfl)]
  simp [List.mem_finRange]

/-- The in-place and out-of-place operator loops agree, for any componentwise
operation. -/
lemma sa_inplace_eq_binop {Dim : Nat} (f : Nat → Nat → Nat) (a b : static_array Dim) :
    sa_inplace f a b = sa_binop f a b := by
  ext i
  rw [sa_inplace_get, sa_binop_get]

/-- Each component of a broadcast-constructed array equals the scalar. -/
lemma sa_broadcast_get (Dim s : Nat) (i : Fin Dim) :
    (sa_broadcast Dim s)._data i = s := by
  unfold sa_broadcast
  rw [foldl_write_get]
  simp [List.mem_finRange]

/-- A multiply-accumulate loop modulo `2 ^ 64` computes the product of the
mapped list modulo `2 ^ 64`. -/
lemma foldl_mul_mod {α : Type} (g : α → Nat) (l : List α) :
    ∀ init : Nat, l.foldl (fun s x => s * g x % 2 ^ 64) (init % 2 ^ 64) =
      init * (l.map g).prod % 2 ^ 64 := by
  induction l with
  | nil => simp
  | cons x t ih =>
    intro init
    rw [List.foldl_cons]
    have h1 : init % 2 ^ 64 * g x % 2 ^ 64 = init * g x % 2 ^ 64 :=
      Nat.mod_mul_mod
    rw [h1, ih (init * g x)]
    rw [List.map_cons, List.prod_cons, ← Nat.mul_assoc]

/-- `size()` equals the product of all components, reduced modulo `2 ^ 64`. -/
lemma sa_size_eq {Dim : Nat} (v : static_array Dim) :
    sa_size v = ((List.finRange Dim).map v._data).prod % 2 ^ 64 := by
  have h1 : (1 : Nat) = 1 % 2 ^ 64 := by decide
  unfold sa_size
  rw [h1, foldl_mul_mod, Nat.one_mul]

/-- Claim C8: for every `Dim ∈ {1,2,3}` and all vectors `a, b` of that
dimension (with `std::size_t` components), `a + b == b + a`,
`(a + b) - b == a`, equality is reflexive, and `a != b` holds iff some
component of `a` differs from the corresponding component of `b`. -/
theorem c8_vector_algebra (Dim : Nat) (hD : Dim = 1 ∨ Dim = 2 ∨ Dim = 3)
    (a b : static_array Dim)
    (ha : ∀ i, a._data i < 2 ^ 64) (hb : ∀ i, b._data i < 2 ^ 64) :
    sa_add a b = sa_add b a ∧
    sa_sub (sa_add a b) b = a ∧
    sa_beq a a = true ∧
    (sa_bne a b = true ↔ ∃ i, a._data i ≠ b._data i) := by
  refine ⟨?_, ?_, ?_, ?_⟩
  · ext i
    rw [sa_add, sa_add, sa_binop_get, sa_binop_get]
    simp [szAdd, Nat.add_comm]
  · ext i
    rw [sa_sub, sa_add, sa_binop_get, sa_binop_get]
    have h1 := ha i
    have h2 := hb i
    simp only [szAdd, szSub]
    rw [Nat.add_sub_assoc (Nat.le_of_lt h2), Nat.mod_add_mod, Nat.add_assoc,
      Nat.add_sub_cancel' (Nat.le_of_lt h2), Nat.add_mod_right]
    exact Nat.mod_eq_of_lt h1
  · exact (sa_beq_eq_true_iff a a).mpr fun _ => rfl
  · rw [show sa_bne a b = !(sa_beq a b) from rfl, Bool.not_eq_true', ← Bool.not_eq_true,
      sa_beq_eq_true_iff]
    push_neg
    exact Iff.rfl

/-- Witness for C8 at `Dim = 2`, `a = (1, 2)`, `b = (1, 5)`. -/
theorem c8_vector_algebra_witness :
    sa_add (sa_mk2 1 2) (sa_mk2 1 5) = sa_add (sa_mk2 1 5) (sa_mk2 1 2) ∧
    sa_sub (sa_add (sa_mk2 1 2) (sa_mk2 1 5)) (sa_mk2 1 5) = sa_mk2 1 2 ∧
    sa_beq (sa_mk2 1 2) (sa_mk2 1 2) = true ∧
    (sa_bne (sa_mk2 1 2) (sa_mk2 1 5) = true ↔
      ∃ i, (sa_mk2 1 2)._data i ≠ (sa_mk2 1 5)._data i) :=
  c8_vector_algebra 2 (Or.inr (Or.inl rfl)) (sa_mk2 1 2) (sa_mk2 1 5)
    (by decide) (by decide)

/-- The claim that a broadcast-constructed vector's `size()` equals `s ^ Dim`
fails once the product overflows: for `Dim = 2`, `s = 2 ^ 32`, `size()`
wraps to `0` while `s ^ Dim = 2 ^ 64`. -/
theorem c9_size_counterexample :
    sa_size (sa_broadcast 2 (2 ^ 32)) ≠ (2 ^ 32) ^ 2 := by decide

/-- Claim C9 (amended): every component of the broadcast-constructed vector
equals the scalar `s`, and `size()` equals `s ^ Dim` reduced modulo `2 ^ 64`
— hence equals `s ^ Dim` exactly whenever that power does not overflow. -/
theorem c9_broadcast_size (Dim s : Nat) (hs : s < 2 ^ 64) :
    (∀ i, (sa_broadcast Dim s)._data i = s) ∧
    sa_size (sa_broadcast Dim s) = s ^ Dim % 2 ^ 64 ∧
    (s ^ Dim < 2 ^ 64 → sa_size (sa_broadcast Dim s) = s ^ Dim) := by
  have hsize : sa_size (sa_broadcast Dim s) = s ^ Dim % 2 ^ 64 := by
    rw [sa_size_eq]
    have hmap : (List.finRange Dim).map (sa_broadcast Dim s)._data =
        (List.finRange Dim).map fun _ => s :=
      List.map_congr_left fun i _ => sa_broadcast_get Dim s i
    rw [hmap, List.map_const', List.length_finRange, List.prod_replicate]
  exact ⟨sa_broadcast_get Dim s, hsize,
    fun h => by rw [hsize, Nat.mod_eq_of_lt h]⟩

/-- Witness for C9 at `Dim = 2`, `s = 3`. -/
theorem c9_broadcast_size_witness :
    (∀ i, (sa_broadcast 2 3)._data i = 3) ∧ sa_size (sa_broadcast 2 3) = 3 ^ 2 :=
  ⟨(c9_broadcast_size 2 3 (by decide)).1,
   (c9_broadcast_size 2 3 (by decide)).2.2 (by decide)⟩

/-- Claim C10: for every dimension and all vectors `a, b`, each compound
assignment `a op= b` leaves `a` equal to the out-of-place `a op b` computed
on the original values, for `op ∈ {+, -, *, /, %}` (the divisor components
being non-zero for `/` and `%`). -/
theorem c10_inplace_matches_binary (Dim : Nat) (a b : static_array Dim) :
    sa_add_assign a b = sa_add a b ∧
    sa_sub_assign a b = sa_sub a b ∧
    sa_mul_assign a b = sa_mul a b ∧
    ((∀ i, b._data i ≠ 0) →
      sa_div_assign a b = sa_div a b ∧ sa_mod_assign a b = sa_mod a b) :=
  ⟨sa_inplace_eq_binop szAdd a b, sa_inplace_eq_binop szSub a b,
   sa_inplace_eq_binop szMul a b,
   fun _ => ⟨sa_inplace_eq_binop szDiv a b, sa_inplace_eq_binop szMod a b⟩⟩

/-- Witness for C10 at `Dim = 2`, `a = (10, 7)`, `b = (2, 3)`. -/
theorem c10_inplace_matches_binary_witness :
    sa_add_assign (sa_mk2 10 7) (sa_mk2 2 3) = sa_add (sa_mk2 10 7) (sa_mk2 2 3) ∧
    sa_div_assign (sa_mk2 10 7) (sa_mk2 2 3) = sa_div (sa_mk2 10 7) (sa_mk2 2 3) :=
  ⟨(c10_inplace_matches_binary 2 (sa_mk2 10 7) (sa_mk2 2 3)).1,
   ((c10_inplace_matches_binary 2 (sa_mk2 10 7) (sa_mk2 2 3)).2.2.2 (by decide)).1⟩

/-- The shift-or cascade of `next_power_of_2` as an iterated step: step
`k + 1` is `x |= x >> 2^k`, so `smearAux a 6` performs the source's six
steps (shifts 1, 2, 4, 8, 16, 32) in order. -/
def smearAux (a : Nat) : Nat → Nat
  | 0 => a
  | k + 1 => smearAux a k ||| (smearAux a k >>> 2 ^ k)

/-- `next_power_of_2` in terms of the iterated smear. -/
lemma next_power_of_2_eq_smear (a : Nat) :
    next_power_of_2 a = (smearAux a 6 + 1) % 2 ^ 64 := rfl

/-- One shift-or step, read off bit by bit. -/
lemma or_shiftRight_testBit (x s i : Nat) :
    (x ||| x >>> s).testBit i = (x.testBit i || x.testBit (i + s)) := by
  rw [Nat.testBit_lor, Nat.testBit_shiftRight, Nat.add_comm s i]

/-- Bit `i` of the `k`-step smear is set iff one of the `2 ^ k` input bits
at positions `i, i+1, …, i + 2^k - 1` is set. -/
lemma smearAux_testBit (a : Nat) :
    ∀ k i, (smearAux a k).testBit i = true ↔
      ∃ d, d < 2 ^ k ∧ a.testBit (i + d) = true := by
  intro k
  induction k with
  | zero =>
    intro i
    constructor
    · intro h
      exact ⟨0, Nat.zero_lt_one, by simpa using h⟩
    · rintro ⟨d, hd, hbit⟩
      have hd0 : d = 0 := Nat.lt_one_iff.mp hd
      subst hd0
      simpa using hbit
  | succ k ih =>
    intro i
    have hpow : 2 ^ (k + 1) = 2 ^ k + 2 ^ k := by
      rw [Nat.pow_succ, Nat.mul_two]
    rw [show smearAux a (k + 1) = smearAux a k ||| smearAux a k >>> 2 ^ k from rfl,
      or_shiftRight_testBit, Bool.or_eq_true, ih i, ih (i + 2 ^ k)]
    constructor
    · rintro (⟨d, hd, hbit⟩ | ⟨d, hd, hbit⟩)
      · exact ⟨d, by rw [hpow]; exact Nat.lt_add_right _ hd, hbit⟩
      · exact ⟨2 ^ k + d, by rw [hpow]; exact Nat.add_lt_add_left hd _,
          by rwa [← Nat.add_assoc]⟩
    · rintro ⟨d, hd, hbit⟩
      by_cases hdk : d < 2 ^ k
      · exact Or.inl ⟨d, hdk, hbit⟩
      · rw [hpow] at hd
        refine Or.inr ⟨d - 2 ^ k,
          Nat.sub_lt_left_of_lt_add (Nat.le_of_not_lt hdk) hd, ?_⟩
        rw [Nat.add_assoc, Nat.add_sub_cancel' (Nat.le_of_not_lt hdk)]
        exact hbit

/-- The most significant bit of a positive number is set. -/
lemma testBit_size_sub_one {a : Nat} (ha : 0 < a) : a.testBit (a.size - 1) = true := by
  have hpos : 0 < a.size := Nat.size_pos.mpr ha
  have h1 : 2 ^ (a.size - 1) ≤ a := Nat.lt_size.mp (Nat.sub_lt hpos Nat.zero_lt_one)
  have h2 : a < 2 ^ a.size := Nat.lt_size_self a
  have h3 : a / 2 ^ (a.size - 1) = 1 := by
    apply Nat.div_eq_of_lt_le
    · simpa using h1
    · have hss : a.size - 1 + 1 = a.size := Nat.sub_add_cancel hpos
      calc a < 2 ^ a.size := h2
        _ = 2 ^ (a.size - 1 + 1) := by rw [hss]
        _ = 2 ^ (a.size - 1) * 2 := by rw [Nat.pow_succ]
        _ = (1 + 1) * 2 ^ (a.size - 1) := by ring
  rw [Nat.testBit_to_div_mod, h3]
  decide

/-- Bits at or above the bit length are clear. -/
lemma testBit_eq_false_of_size_le {a i : Nat} (h : a.size ≤ i) : a.testBit i = false := by
  apply Nat.testBit_lt_two_pow
  calc a < 2 ^ a.size := Nat.lt_size_self a
    _ ≤ 2 ^ i := Nat.pow_le_pow_right (by decide) h

/-- For inputs below `2 ^ 64`, the six smear steps set every bit below the
most significant set bit: the result is `2 ^ size a - 1`. -/
lemma smearAux_six_eq {a : Nat} (ha : a < 2 ^ 64) : smearAux a 6 = 2 ^ a.size - 1 := by
  have hsize : a.size ≤ 64 := Nat.size_le.mpr ha
  apply Nat.eq_of_testBit_eq
  intro i
  rw [Nat.testBit_two_pow_sub_one]
  by_cases hi : i < a.size
  · have hspos : 0 < a.size := Nat.lt_of_le_of_lt (Nat.zero_le i) hi
    have hmem : (smearAux a 6).testBit i = true :=
      (smearAux_testBit a 6 i).mpr ⟨a.size - 1 - i,
        Nat.lt_of_lt_of_le
          (Nat.lt_of_le_of_lt (Nat.sub_le _ i) (Nat.sub_lt hspos Nat.zero_lt_one))
          hsize, by
        rw [Nat.add_sub_cancel' (Nat.le_sub_one_of_lt hi)]
        exact testBit_size_sub_one (Nat.size_pos.mp hspos)⟩
    rw [hmem]
    exact (decide_eq_true hi).symm
  · have hmem : ¬ ((smearAux a 6).testBit i = true) := by
      intro h
      obtain ⟨d, hd, hbit⟩ := (smearAux_testBit a 6 i).mp h
      rw [testBit_eq_false_of_size_le
        (Nat.le_trans (Nat.le_of_not_lt hi) (Nat.le_add_right i d))] at hbit
      exact Bool.false_ne_true hbit
    rw [Bool.not_eq_true] at hmem
    rw [hmem]
    exact (decide_eq_false hi).symm

/-- For every `a < 2 ^ 64`, `next_power_of_2 a` is `2 ^ (bit length of a)`
reduced modulo `2 ^ 64`. -/
lemma next_power_of_2_eq (a : Nat) (ha : a < 2 ^ 64) :
    next_power_of_2 a = 2 ^ a.size % 2 ^ 64 := by
  rw [next_power_of_2_eq_smear, smearAux_six_eq ha,
    Nat.sub_add_cancel (Nat.two_pow_pos a.size)]

/-- Below `2 ^ 63` no wrap occurs: the result is exactly `2 ^ size a`. -/
lemma next_power_of_2_of_lt {a : Nat} (ha : a < 2 ^ 63) :
    next_power_of_2 a = 2 ^ a.size := by
  have ha64 : a < 2 ^ 64 := Nat.lt_trans ha (by decide)
  rw [next_power_of_2_eq a ha64]
  apply Nat.mod_eq_of_lt
  have hs : a.size ≤ 63 := Nat.size_le.mpr ha
  calc (2 : Nat) ^ a.size ≤ 2 ^ 63 := Nat.pow_le_pow_right (by decide) hs
    _ < 2 ^ 64 := by decide

/-- At or above `2 ^ 63` the smeared value is all-ones and the `+ 1` wraps
to zero. -/
lemma next_power_of_2_of_ge {a : Nat} (ha64 : a < 2 ^ 64) (ha : 2 ^ 63 ≤ a) :
    next_power_of_2 a = 0 := by
  have h1 : a.size ≤ 64 := Nat.size_le.mpr ha64
  have h2 : 63 < a.size := Nat.lt_size.mpr ha
  have h3 : a.size = 64 := Nat.le_antisymm h1 h2
  rw [next_power_of_2_eq a ha64, h3, Nat.mod_self]

/-- Claim C5: for every 64-bit `a`, `next_power_of_2 a` is the smallest power
of two strictly greater than `a` whenever that power is representable
(`a < 2^63`), and wraps to `0` otherwise; `next_power_of_2 5 = 8` and
`next_power_of_2 8 = 16`. -/
theorem c5_next_power_of_2 (a : Nat) (ha : a < 2 ^ 64) :
    (a < 2 ^ 63 →
      (∃ k, next_power_of_2 a = 2 ^ k) ∧
      a < next_power_of_2 a ∧
      ∀ k, a < 2 ^ k → next_power_of_2 a ≤ 2 ^ k) ∧
    (2 ^ 63 ≤ a → next_power_of_2 a = 0) ∧
    next_power_of_2 5 = 8 ∧ next_power_of_2 8 = 16 := by
  refine ⟨fun hlt => ?_, fun hge => next_power_of_2_of_ge ha hge, by decide, by decide⟩
  rw [next_power_of_2_of_lt hlt]
  exact ⟨⟨a.size, rfl⟩, Nat.lt_size_self a,
    fun k hk => Nat.pow_le_pow_right (by decide) (Nat.size_le.mpr hk)⟩

/-- Witness for C5 at `a = 5` and at the overflow boundary `a = 2 ^ 63`. -/
theorem c5_next_power_of_2_witness :
    5 < next_power_of_2 5 ∧ next_power_of_2 5 ≤ 2 ^ 3 ∧ next_power_of_2 (2 ^ 63) = 0 :=
  ⟨((c5_next_power_of_2 5 (by decide)).1 (by decide)).2.1,
   ((c5_next_power_of_2 5 (by decide)).1 (by decide)).2.2 3 (by decide),
   (c5_next_power_of_2 (2 ^ 63) (by decide)).2.1 (by decide)⟩

/-- Counterexample to C4 as stated over all 64-bit inputs: at
`a = 2 ^ 63 + 1` the computation wraps to `0`, which is smaller than `a`,
so the result is not a power of two greater than or equal to `a`. -/
theorem c4_counterexample : power_of_2_ceil (2 ^ 63 + 1) < 2 ^ 63 + 1 := by decide

/-- Claim C4 (amended): `power_of_2_ceil 0 = 0`; for `a ≥ 1` it equals
`next_power_of_2 (a - 1)`, which for `a ≤ 2 ^ 63` is the smallest power of
two greater than or equal to `a` and for `a > 2 ^ 63` wraps to `0`; with the
documented values at `1`, `5` and `8`. -/
theorem c4_power_of_2_ceil (a : Nat) (ha : a < 2 ^ 64) :
    power_of_2_ceil 0 = 0 ∧
    (1 ≤ a → power_of_2_ceil a = next_power_of_2 (a - 1)) ∧
    (1 ≤ a → a ≤ 2 ^ 63 →
      (∃ k, power_of_2_ceil a = 2 ^ k) ∧
      a ≤ power_of_2_ceil a ∧
      ∀ k, a ≤ 2 ^ k → power_of_2_ceil a ≤ 2 ^ k) ∧
    (2 ^ 63 < a → power_of_2_ceil a = 0) ∧
    power_of_2_ceil 1 = 1 ∧ power_of_2_ceil 5 = 8 ∧ power_of_2_ceil 8 = 8 := by
  have hne : ∀ x : Nat, 1 ≤ x → power_of_2_ceil x = next_power_of_2 (x - 1) := by
    intro x hx
    rw [power_of_2_ceil, if_neg (Nat.pos_iff_ne_zero.mp hx)]
  refine ⟨rfl, hne a, fun h1 h2 => ?_, fun h => ?_, by decide, by decide, by decide⟩
  · have hlt : a - 1 < 2 ^ 63 := Nat.lt_of_lt_of_le (Nat.sub_lt h1 Nat.zero_lt_one) h2
    rw [hne a h1, next_power_of_2_of_lt hlt]
    refine ⟨⟨(a - 1).size, rfl⟩, Nat.le_of_pred_lt (Nat.lt_size_self (a - 1)), ?_⟩
    intro k hk
    exact Nat.pow_le_pow_right (by decide)
      (Nat.size_le.mpr (Nat.lt_of_lt_of_le (Nat.sub_lt h1 Nat.zero_lt_one) hk))
  · rw [hne a (Nat.le_trans (by decide) (Nat.le_of_lt h)),
      next_power_of_2_of_ge (Nat.lt_of_le_of_lt (Nat.sub_le a 1) ha)
        (Nat.le_sub_one_of_lt h)]

/-- Witness for C4 at `a = 5` and at the overflow input `a = 2 ^ 63 + 2`. -/
theorem c4_power_of_2_ceil_witness :
    5 ≤ power_of_2_ceil 5 ∧ power_of_2_ceil 5 ≤ 2 ^ 3 ∧
    power_of_2_ceil 5 = next_power_of_2 4 ∧ power_of_2_ceil (2 ^ 63 + 2) = 0 :=
  ⟨((c4_power_of_2_ceil 5 (by decide)).2.2.1 (by decide) (by decide)).2.1,
   ((c4_power_of_2_ceil 5 (by decide)).2.2.1 (by decide) (by decide)).2.2 3 (by decide),
   (c4_power_of_2_ceil 5 (by decide)).2.1 (by decide),
   (c4_power_of_2_ceil (2 ^ 63 + 2) (by decide)).2.2.2.1 (by decide)⟩

/-- With no 64-bit overflow of the numerator, `ceil_division` computes
`(a + b - 1) / b` exactly. -/
lemma ceil_division_eq {a b : Nat} (hno : a + b - 1 < 2 ^ 64) :
    ceil_division a b = (a + b - 1) / b := by
  rw [ceil_division, Nat.mod_eq_of_lt hno]

/-- Multiplying `(a + b - 1) / b` back by `b` reaches at least `a`. -/
lemma le_ceil_mul {a b : Nat} (hb : 0 < b) : a ≤ (a + b - 1) / b * b := by
  have hdm := Nat.div_add_mod (a + b - 1) b
  have hr : (a + b - 1) % b < b := Nat.mod_lt _ hb
  have hab : b * ((a + b - 1) / b) + (a + b - 1) % b + 1 = a + b := by
    rw [hdm, Nat.sub_add_cancel (Nat.le_trans hb (Nat.le_add_left b a))]
  have h2 : a + b ≤ b * ((a + b - 1) / b) + b :=
    calc a + b = b * ((a + b - 1) / b) + ((a + b - 1) % b + 1) := by
          rw [← Nat.add_assoc]
          exact hab.symm
      _ ≤ b * ((a + b - 1) / b) + b :=
          Nat.add_le_add_left (Nat.succ_le_of_lt hr) _
  rw [Nat.mul_comm]
  exact Nat.le_of_add_le_add_right h2

/-- `(a + b - 1) / b` is the least `q` with `a ≤ q * b`. -/
lemma ceil_le_of_le_mul {a b q : Nat} (hb : 0 < b) (h : a ≤ q * b) :
    (a + b - 1) / b ≤ q := by
  have hkey : a + b - 1 < (q + 1) * b := by
    rw [Nat.add_mul, Nat.one_mul]
    exact Nat.lt_of_le_of_lt
      (Nat.sub_le_sub_right (Nat.add_le_add_right h b) 1)
      (Nat.sub_lt (Nat.lt_of_lt_of_le hb (Nat.le_add_left b (q * b))) Nat.zero_lt_one)
  exact Nat.lt_succ_iff.mp ((Nat.div_lt_iff_lt_mul hb).mpr hkey)

/-- Counterexample to C6 as stated over all 64-bit inputs: at
`a = 2 ^ 64 - 1`, `b = 2`, the numerator `a + b - 1` wraps to `0`, the result
is `0`, and `0 * b` is far below `a` — not the ceiling of `a / b`. -/
theorem c6_counterexample :
    ceil_division (2 ^ 64 - 1) 2 = 0 ∧
    ceil_division (2 ^ 64 - 1) 2 * 2 < 2 ^ 64 - 1 := by decide

/-- Claim C6 (amended): for `b > 0` and `a + b - 1 < 2 ^ 64` (no wrap of the
numerator), `ceil_division a b = (a + b - 1) / b` is the mathematical ceiling
of `a / b`: the least `q` with `a ≤ q * b`; with the documented values. -/
theorem c6_ceil_division (a b : Nat) (ha : a < 2 ^ 64) (hb : 0 < b) (hb64 : b < 2 ^ 64)
    (hno : a + b - 1 < 2 ^ 64) :
    ceil_division a b = (a + b - 1) / b ∧
    a ≤ ceil_division a b * b ∧
    (∀ q, a ≤ q * b → ceil_division a b ≤ q) ∧
    ceil_division 7 2 = 4 ∧ ceil_division 8 2 = 4 := by
  refine ⟨ceil_division_eq hno, ?_, ?_, by decide, by decide⟩
  · rw [ceil_division_eq hno]
    exact le_ceil_mul hb
  · intro q hq
    rw [ceil_division_eq hno]
    exact ceil_le_of_le_mul hb hq

/-- Witness for C6 at `a = 7`, `b = 2`. -/
theorem c6_ceil_division_witness :
    ceil_division 7 2 = (7 + 2 - 1) / 2 ∧ 7 ≤ ceil_division 7 2 * 2 ∧
    ceil_division 7 2 ≤ 4 :=
  ⟨(c6_ceil_division 7 2 (by decide) (by decide) (by decide) (by decide)).1,
   (c6_ceil_division 7 2 (by decide) (by decide) (by decide) (by decide)).2.1,
   (c6_ceil_division 7 2 (by decide) (by decide) (by decide) (by decide)).2.2.1 4
     (by decide)⟩

/-- Counterexample to C7 as stated over all 64-bit inputs: at
`a = 2 ^ 64 - 1`, `b = 2`, the result wraps to `0`, which is not a multiple
of `b` at or above `a`. -/
theorem c7_counterexample :
    next_multiple_of (2 ^ 64 - 1) 2 = 0 ∧
    next_multiple_of (2 ^ 64 - 1) 2 < 2 ^ 64 - 1 := by decide

/-- Claim C7 (amended): for `b > 0` and `a + b - 1 < 2 ^ 64`,
`next_multiple_of a b` is the smallest multiple of `b` greater than or equal
to `a`; with the documented values. -/
theorem c7_next_multiple_of (a b : Nat) (ha : a < 2 ^ 64) (hb : 0 < b) (hb64 : b < 2 ^ 64)
    (hno : a + b - 1 < 2 ^ 64) :
    (∃ k, next_multiple_of a b = k * b) ∧
    a ≤ next_multiple_of a b ∧
    (∀ m, (∃ k, m = k * b) → a ≤ m → next_multiple_of a b ≤ m) ∧
    next_multiple_of 7 4 = 8 ∧ next_multiple_of 8 4 = 8 := by
  have hmul_le : (a + b - 1) / b * b ≤ a + b - 1 := Nat.div_mul_le_self _ _
  have hmm : next_multiple_of a b = (a + b - 1) / b * b := by
    rw [next_multiple_of, ceil_division_eq hno]
    exact Nat.mod_eq_of_lt (Nat.lt_of_le_of_lt hmul_le hno)
  refine ⟨⟨(a + b - 1) / b, hmm⟩, ?_, ?_, by decide, by decide⟩
  · rw [hmm]
    exact le_ceil_mul hb
  · rintro m ⟨k, rfl⟩ hm
    rw [hmm]
    exact Nat.mul_le_mul_right b (ceil_le_of_le_mul hb hm)

/-- Witness for C7 at `a = 7`, `b = 4`. -/
theorem c7_next_multiple_of_witness :
    (∃ k, next_multiple_of 7 4 = k * 4) ∧ 7 ≤ next_multiple_of 7 4 ∧
    next_multiple_of 7 4 ≤ 8 :=
  ⟨(c7_next_multiple_of 7 4 (by decide) (by decide) (by decide) (by decide)).1,
   (c7_next_multiple_of 7 4 (by decide) (by decide) (by decide) (by decide)).2.1,
   (c7_next_multiple_of 7 4 (by decide) (by decide) (by decide) (by decide)).2.2.1 8
     ⟨2, by decide⟩ (by decide)⟩
